import Mathlib

/-!
Shallow embedding of the VRP genetic-algorithm solver (`vrp_solver.py`) and
of the DEAP library functions it invokes (`tools.selTournament`,
`tools.cxPartialyMatched`, `tools.mutShuffleIndexes`, `tools.HallOfFame`,
`tools.Statistics`, `algorithms.eaSimple`, `algorithms.varAnd`), together
with the parts of Python's `random` module the solver draws from
(`random.sample`, `random.choice`, `random.random`, `random.randint`).

Modelling conventions:
* Python floats are modelled as rationals.  The floating-point square
  root used by `np.linalg.norm` and `np.std` is modelled by `qSqrt`, an
  exact rational square root that agrees with the real square root on
  perfect squares; every concrete scenario in this development only
  produces perfect squares.
* The global Mersenne-Twister state of Python's `random` module is
  modelled as a stream of raw natural draws (`RNG`); `random.seed(s)`
  installs the stream `mt s`, where `mt : Int → Nat → Nat` abstracts the
  seeding function.  Theorems quantifying over the stream cover every
  possible sequence of random choices.
* Python lists are Lean lists; in-place mutation becomes explicit state
  passing, and `deepcopy`-based cloning is the identity on values.
-/

namespace VRPGA

/-- Structurally recursive integer square root — the largest `k` with
`k * k ≤ n` — so that concrete runs evaluate inside the kernel (the core
`Nat.sqrt` is defined by well-founded recursion and does not reduce
there). -/
def natSqrt (n : Nat) : Nat :=
  ((List.range (n + 1)).filter (fun k => Nat.ble (k * k) n)).length - 1

/-- Division of a rational by a natural number, written with `mkRat` so
that it reduces in the kernel (the library `Rat.inv` behind `/` is
`@[irreducible]`); equal to `a / n` by `divNat_eq` below. -/
def divNat (a : ℚ) (n : Nat) : ℚ := mkRat a.num (a.den * n)

/-- Rational square root modelling the floating-point square root: exact on
perfect squares of rationals, floor-approximate otherwise, and `0` on
non-positive inputs. -/
def qSqrt (q : ℚ) : ℚ :=
  if q ≤ 0 then 0 else divNat (natSqrt (q.num.toNat * q.den) : ℚ) q.den

/-- A 2-D point with rational coordinates. -/
abbrev Point := ℚ × ℚ

/-- Model of `np.linalg.norm(np.array(q) - np.array(p))` for 2-D points. -/
def euclid (p q : Point) : ℚ :=
  qSqrt ((q.1 - p.1) ^ 2 + (q.2 - p.2) ^ 2)

/-- Model of the global state of Python's `random` module: a stream of raw
natural draws and a current position.  Every primitive below consumes one
draw. -/
structure RNG where
  stream : Nat → Nat
  pos : Nat

/-- Consume one raw draw. -/
def RNG.next (g : RNG) : Nat × RNG :=
  (g.stream g.pos, { g with pos := g.pos + 1 })

/-- Model of `random._randbelow(n)`: a raw draw reduced below `n`
(`_randbelow(0)` returns `0` in CPython). -/
def randbelow (n : Nat) (g : RNG) : Nat × RNG :=
  let (x, g') := g.next
  (if n = 0 then 0 else x % n, g')

/-- Model of `random.random()`: a draw mapped into `[0, 1)` with 53-bit
resolution. -/
def randfloat (g : RNG) : ℚ × RNG :=
  let (x, g') := g.next
  (mkRat ((x % 9007199254740992 : ℕ) : Int) 9007199254740992, g')

/-- Model of `random.randint(a, b)`, i.e. `randrange(a, b + 1)`.  It is the
Python function for `a ≤ b`; Python raises `ValueError` for `b < a`, a case
that the truncated subtraction here totalises and that is reached by the
solver only for degenerate instances noted at the theorems that exclude
them. -/
def randint (a b : Nat) (g : RNG) : Nat × RNG :=
  let (x, g') := randbelow (b + 1 - a) g
  (a + x, g')

/-- Model of `random.choice(seq)`: `seq[_randbelow(len(seq))]`. -/
def choice {α : Type} (l : List α) (d : α) (g : RNG) : α × RNG :=
  let (j, g') := randbelow l.length g
  (l.getD j d, g')

/-- The pool-based branch of `random.sample` (a partial Fisher-Yates over a
copied pool), which is the branch always taken for
`random.sample(range(n), n)`.  `fuel` is the number of iterations left; it
equals the size of the still-active pool prefix. -/
def sampleGo : Nat → List Nat → List Nat → RNG → List Nat × RNG
  | 0, _, acc, g => (acc, g)
  | fuel + 1, pool, acc, g =>
    let (j, g') := randbelow (fuel + 1) g
    sampleGo fuel (pool.set j (pool.getD fuel 0)) (acc ++ [pool.getD j 0]) g'

/-- Model of `random.sample(range(n), n)`, the `toolbox.indices`
generator. -/
def pySample (n : Nat) (g : RNG) : List Nat × RNG :=
  sampleGo n (List.range n) [] g

/-- Model of a DEAP `creator.Individual`: the permutation list plus the
cached `FitnessMin` values `(total_distance, balance_penalty)`; `none`
models an invalid (deleted or not yet computed) fitness. -/
structure Ind where
  perm : List Nat
  fit : Option (ℚ × ℚ)
deriving DecidableEq, Repr, Inhabited

/-- Weighted values of `FitnessMin` with `weights = (-1.0, -1.0)`. -/
def wvalues (f : ℚ × ℚ) : ℚ × ℚ := (-1 * f.1, -1 * f.2)

/-- Python tuple `<=` on pairs (lexicographic). -/
def tupLe (a b : ℚ × ℚ) : Bool :=
  if a.1 < b.1 then true
  else if a.1 = b.1 then decide (a.2 ≤ b.2)
  else false

/-- Model of DEAP `Fitness.__gt__`: `f > g` iff
`not (f.wvalues <= g.wvalues)`, where an invalid fitness contributes the
empty tuple (which compares below every non-empty tuple). -/
def fitGt : Option (ℚ × ℚ) → Option (ℚ × ℚ) → Bool
  | none, _ => false
  | some _, none => true
  | some f, some g => !(tupLe (wvalues f) (wvalues g))

/-- Model of Python's `max(aspirants, key=attrgetter("fitness"))`: a left
fold keeping the first maximum (the current best is replaced only on a
strict `>`).  Python raises on an empty sequence; the default head is never
reached with `tournsize ≥ 1`. -/
def pyMaxFit : List Ind → Ind
  | [] => default
  | x :: xs => xs.foldl (fun best i => if fitGt i.fit best.fit then i else best) x

/-- Model of `tools.selRandom(individuals, k)`:
`[random.choice(individuals) for i in range(k)]`. -/
def selRandom (individuals : List Ind) : Nat → RNG → List Ind × RNG
  | 0, g => ([], g)
  | k + 1, g =>
    let (x, g') := choice individuals default g
    let (rest, g'') := selRandom individuals k g'
    (x :: rest, g'')

/-- Model of `tools.selTournament(individuals, k, tournsize)`. -/
def selTournament (individuals : List Ind) (tournsize : Nat) :
    Nat → RNG → List Ind × RNG
  | 0, g => ([], g)
  | k + 1, g =>
    let (aspirants, g') := selRandom individuals tournsize g
    let (rest, g'') := selTournament individuals tournsize k g'
    (pyMaxFit aspirants :: rest, g'')

/-- The position-map construction at the head of `cxPartialyMatched`:
`p[ind[i]] = i` for `i in range(size)` starting from `[0] * size`. -/
def buildPos (size : Nat) (ind : List Nat) : List Nat :=
  (List.range size).foldl (fun p i => p.set (ind.getD i 0) i)
    (List.replicate size 0)

/-- One iteration of the `cxPartialyMatched` matching loop at position `i`,
acting on `(ind1, ind2, p1, p2)`; Python's parallel assignments are
unfolded into their sequential-store semantics. -/
def cxStep (s : List Nat × List Nat × List Nat × List Nat) (i : Nat) :
    List Nat × List Nat × List Nat × List Nat :=
  let ind1 := s.1
  let ind2 := s.2.1
  let p1 := s.2.2.1
  let p2 := s.2.2.2
  let temp1 := ind1.getD i 0
  let temp2 := ind2.getD i 0
  ((ind1.set i temp2).set (p1.getD temp2 0) temp1,
   (ind2.set i temp1).set (p2.getD temp1 0) temp2,
   (p1.set temp1 (p1.getD temp2 0)).set temp2 (p1.getD temp1 0),
   (p2.set temp1 (p2.getD temp2 0)).set temp2 (p2.getD temp1 0))

/-- Model of `tools.cxPartialyMatched(ind1, ind2)`. -/
def cxPartialyMatched (ind1 ind2 : List Nat) (g : RNG) :
    List Nat × List Nat × RNG :=
  let size := min ind1.length ind2.length
  let p1 := buildPos size ind1
  let p2 := buildPos size ind2
  let (c1, g) := randint 0 size g
  let (c2, g) := randint 0 (size - 1) g
  let cxpoint1 := if c2 ≥ c1 then c1 else c2
  let cxpoint2 := if c2 ≥ c1 then c2 + 1 else c1
  let r := (List.range' cxpoint1 (cxpoint2 - cxpoint1)).foldl cxStep
    (ind1, ind2, p1, p2)
  (r.1, r.2.1, g)

/-- Sequential-store swap `l[i], l[j] = l[j], l[i]`. -/
def listSwap (l : List Nat) (i j : Nat) : List Nat :=
  (l.set i (l.getD j 0)).set j (l.getD i 0)

/-- Model of `tools.mutShuffleIndexes(individual, indpb)`. -/
def mutShuffleIndexes (individual : List Nat) (indpb : ℚ) (g : RNG) :
    List Nat × RNG :=
  let size := individual.length
  (List.range size).foldl
    (fun (s : List Nat × RNG) i =>
      let (ind, g) := s
      let (r, g) := randfloat g
      if r < indpb then
        let (si, g) := randint 0 (size - 2) g
        let swapIndx := if si ≥ i then si + 1 else si
        (listSwap ind i swapIndx, g)
      else (ind, g))
    (individual, g)

/-- Model of `tools.HallOfFame(1).update(population)` specialised to its
size-1 use in `solve`: `similar` is `operator.eq`, i.e. list equality of
the permutations.  The `none` branch models the initially empty hall
inserting `population[0]`, which at that point is exactly the individual
under iteration. -/
def hofUpdate : Option Ind → List Ind → Option Ind
  | hof, [] => hof
  | none, ind :: rest => hofUpdate (some ind) rest
  | some b, ind :: rest =>
    hofUpdate
      (some (if fitGt ind.fit b.fit then (if ind.perm = b.perm then b else ind) else b))
      rest

/-- Model of the `tools.Statistics` object that `solve` returns: it carries
the key (`fitness.values`) and the registered statistic names
(`avg`, `min`, `max`, bound to `np.mean`, `np.min`, `np.max`); it holds no
per-generation records — the logbook built inside `eaSimple` is a separate
object. -/
structure Statistics where
  fields : List String
deriving DecidableEq, Repr

/-- The statistics object registered in `solve`. -/
def mkStatistics : Statistics := ⟨["avg", "min", "max"]⟩

/-- Fitness tuples of a population flattened the way `np.mean`, `np.min`
and `np.max` flatten the array `[ind.fitness.values for ind in pop]` of
2-tuples; an invalid fitness contributes the empty tuple. -/
def flatFits (pop : List Ind) : List ℚ :=
  (pop.map (fun ind => match ind.fit with
    | some f => [f.1, f.2]
    | none => [])).flatten

/-- Model of `np.mean` on a flat array. -/
def npMean (xs : List ℚ) : ℚ := divNat xs.sum xs.length

/-- Model of `np.min` on a flat array (`np.min([])` raises; never reached
with a non-empty evaluated population). -/
def npMin (xs : List ℚ) : ℚ :=
  match xs with
  | [] => 0
  | x :: r => r.foldl min x

/-- Model of `np.max` on a flat array. -/
def npMax (xs : List ℚ) : ℚ :=
  match xs with
  | [] => 0
  | x :: r => r.foldl max x

/-- Model of `np.std` (population standard deviation, `ddof = 0`).  The
empty case (division by zero, yielding `0` in `ℚ`) stands in for the NaN
`np.std([])` produces; it is reached only with `num_vehicles = 0`. -/
def npStd (xs : List ℚ) : ℚ :=
  qSqrt (divNat ((xs.map (fun x => (x - npMean xs) ^ 2)).sum) xs.length)

/-- One logbook record:
`logbook.record(gen=gen, nevals=nevals, **stats.compile(pop))`. -/
structure LogRecord where
  gen : Nat
  nevals : Nat
  avg : ℚ
  minv : ℚ
  maxv : ℚ
deriving DecidableEq, Repr, Inhabited

/-- Compile a statistics record over a population (`stats.compile`) and
pack it with the generation number and evaluation count. -/
def mkRecord (gen nevals : Nat) (pop : List Ind) : LogRecord :=
  let xs := flatFits pop
  ⟨gen, nevals, npMean xs, npMin xs, npMax xs⟩

/-- Size of `[ind for ind in population if not ind.fitness.valid]`. -/
def countInvalid (pop : List Ind) : Nat :=
  (pop.filter (fun ind => !ind.fit.isSome)).length

/-- Positions `range(i, len, step)` of Python, for `step ≥ 1`. -/
def posList (len i step : Nat) : List Nat :=
  List.range' i ((len - i + step - 1) / step) step

/-- The route of vehicle `i` as built inline in `VRPSolver._evaluate_vrp`:
`[depot] + [locations[individual[j]] for j in range(i, len(individual),
num_vehicles)] + [depot]`. -/
def evalRoute (locations : List Point) (depot : Point) (numVehicles : Nat)
    (individual : List Nat) (i : Nat) : List Point :=
  depot :: ((posList individual.length i numVehicles).map
    (fun j => locations.getD (individual.getD j 0) (0, 0))) ++ [depot]

/-- Distance of one route:
`sum(norm(route[k+1] - route[k]) for k in range(len(route) - 1))`. -/
def routeDistance (r : List Point) : ℚ :=
  ((List.range (r.length - 1)).map
    (fun k => euclid (r.getD k (0, 0)) (r.getD (k + 1) (0, 0)))).sum

/-- Model of `VRPSolver._evaluate_vrp`: per-vehicle distances, their sum,
and `np.std` of the per-vehicle distances. -/
def evaluateVRP (locations : List Point) (depot : Point) (numVehicles : Nat)
    (individual : List Nat) : ℚ × ℚ :=
  let dists := (List.range numVehicles).map
    (fun i => routeDistance (evalRoute locations depot numVehicles individual i))
  (dists.sum, npStd dists)

/-- Model of `VRPSolver.get_vehicle_routes`, the public decoder; its route
construction is the same comprehension text as the one inlined in
`_evaluate_vrp`. -/
def getVehicleRoutes (locations : List Point) (depot : Point)
    (numVehicles : Nat) (individual : List Nat) : List (List Point) :=
  (List.range numVehicles).map
    (fun i => depot :: ((posList individual.length i numVehicles).map
      (fun j => locations.getD (individual.getD j 0) (0, 0))) ++ [depot])

/-- Model of `algorithms.varAnd`: clone (a value copy), the crossover pass
over odd positions, then the mutation pass; any modified offspring gets
its fitness deleted.  The mutation operator is registered with
`indpb = 0.05`. -/
def varAnd (offspring : List Ind) (cxpb mutpb : ℚ) (g : RNG) :
    List Ind × RNG :=
  let n := offspring.length
  let crossed := (List.range' 1 (n / 2) 2).foldl
    (fun (s : List Ind × RNG) i =>
      let (l, g) := s
      let (r, g) := randfloat g
      if r < cxpb then
        let a := l.getD (i - 1) default
        let b := l.getD i default
        let (c1, c2, g) := cxPartialyMatched a.perm b.perm g
        ((l.set (i - 1) ⟨c1, none⟩).set i ⟨c2, none⟩, g)
      else (l, g))
    (offspring, g)
  (List.range n).foldl
    (fun (s : List Ind × RNG) i =>
      let (l, g) := s
      let (r, g) := randfloat g
      if r < mutpb then
        let (m, g) := mutShuffleIndexes (l.getD i default).perm (mkRat 1 20) g
        (l.set i ⟨m, none⟩, g)
      else (l, g))
    crossed

/-- Evaluate every individual whose fitness is invalid
(`fitnesses = map(evaluate, invalid_ind)`, assigned back in place). -/
def evalPop (locations : List Point) (depot : Point) (numVehicles : Nat)
    (pop : List Ind) : List Ind :=
  pop.map (fun ind => match ind.fit with
    | some _ => ind
    | none =>
      { ind with fit := some (evaluateVRP locations depot numVehicles ind.perm) })

/-- One generation of the `eaSimple` loop body: tournament selection of
`len(population)` individuals, `varAnd`, evaluation of the invalid
offspring, hall-of-fame update, statistics record. -/
def eaGen (locations : List Point) (depot : Point) (numVehicles : Nat)
    (cxpb mutpb : ℚ) (tournsize : Nat) (gen : Nat)
    (pop : List Ind) (hof : Option Ind) (g : RNG) :
    List Ind × Option Ind × RNG × LogRecord :=
  let (offspring, g) := selTournament pop tournsize pop.length g
  let (offspring, g) := varAnd offspring cxpb mutpb g
  let nevals := countInvalid offspring
  let offspring := evalPop locations depot numVehicles offspring
  let hof := hofUpdate hof offspring
  (offspring, hof, g, mkRecord gen nevals offspring)

/-- The `for gen in range(1, ngen + 1)` loop of `eaSimple`; returns the
final population, hall of fame and random state, and the records appended
to the logbook in order. -/
def eaLoop (locations : List Point) (depot : Point) (numVehicles : Nat)
    (cxpb mutpb : ℚ) (tournsize : Nat) :
    Nat → Nat → List Ind → Option Ind → RNG →
    (List Ind × Option Ind × RNG) × List LogRecord
  | 0, _, pop, hof, g => ((pop, hof, g), [])
  | remaining + 1, gen, pop, hof, g =>
    let s := eaGen locations depot numVehicles cxpb mutpb tournsize gen pop hof g
    let t := eaLoop locations depot numVehicles cxpb mutpb tournsize remaining
      (gen + 1) s.1 s.2.1 s.2.2.1
    (t.1, s.2.2.2 :: t.2)

/-- What `algorithms.eaSimple` leaves behind: the final population and hall
of fame (mutated in place in Python), the random state, and the logbook it
returns. -/
structure EAResult where
  pop : List Ind
  logbook : List LogRecord
  hof : Option Ind
  rng : RNG

/-- Model of `algorithms.eaSimple(population, toolbox, cxpb, mutpb, ngen,
stats, halloffame, verbose)`;  `ngen : Int` so that a negative generation
count (an empty Python `range`) is representable. -/
def eaSimple (locations : List Point) (depot : Point) (numVehicles : Nat)
    (cxpb mutpb : ℚ) (tournsize : Nat) (ngen : Int)
    (pop0 : List Ind) (g : RNG) : EAResult :=
  let nevals0 := countInvalid pop0
  let pop := evalPop locations depot numVehicles pop0
  let hof := hofUpdate none pop
  let firstRecord := mkRecord 0 nevals0 pop
  let t := eaLoop locations depot numVehicles cxpb mutpb tournsize ngen.toNat 1
    pop hof g
  ⟨t.1.1, firstRecord :: t.2, t.1.2.1, t.1.2.2⟩

/-- Model of `toolbox.individual` (`initIterate` applied to
`random.sample(range(num_locations), num_locations)`). -/
def initIndividual (numLocations : Nat) (g : RNG) : Ind × RNG :=
  let (p, g') := pySample numLocations g
  (⟨p, none⟩, g')

/-- Model of `toolbox.population(n)` (`initRepeat`). -/
def initPopulation (numLocations : Nat) : Nat → RNG → List Ind × RNG
  | 0, g => ([], g)
  | n + 1, g =>
    let (ind, g') := initIndividual numLocations g
    let (rest, g'') := initPopulation numLocations n g'
    (ind :: rest, g'')

/-- The keyword parameters of `VRPSolver.solve`. -/
structure GaConfig where
  popSize : Nat
  cxpb : ℚ
  mutpb : ℚ
  ngen : Int
  tournsize : Nat
  seed : Int
deriving DecidableEq, Repr

/-- The tuple `(hof[0], pop, stats, hof)` returned by `VRPSolver.solve`. -/
structure SolveResult where
  best : Ind
  pop : List Ind
  stats : Statistics
  hof : Option Ind
deriving DecidableEq, Repr

/-- Model of `VRPSolver.solve`.  `mt` abstracts the Mersenne-Twister
seeding: `random.seed(seed)` installs the stream `mt seed`, discarding the
prior global state `gPrior`.  The `eaSimple` logbook is computed but not
kept, mirroring the unassigned call `algorithms.eaSimple(...)` in the
source; `pop` and `hof` are mutated in place by `eaSimple` and therefore
reflect the finished run, and the returned `stats` is the `Statistics`
aggregator object itself. -/
def solve (mt : Int → Nat → Nat) (gPrior : RNG) (locations : List Point)
    (depot : Point) (numVehicles : Nat) (cfg : GaConfig) : SolveResult :=
  let g : RNG := ⟨mt cfg.seed, 0⟩
  let ip := initPopulation locations.length cfg.popSize g
  let r := eaSimple locations depot numVehicles cfg.cxpb cfg.mutpb cfg.tournsize
    cfg.ngen ip.1 ip.2
  { best := r.hof.getD default
    pop := r.pop
    stats := mkStatistics
    hof := r.hof }

/-- Claim-side sum of Euclidean distances between consecutive points of a
route, written by structural recursion as the specification phrases it. -/
def legSum : List Point → ℚ
  | [] => 0
  | [_] => 0
  | p :: q :: rest => euclid p q + legSum (q :: rest)

/-- Claim-side population (not sample) standard deviation, as the
specification phrases it. -/
def popStdDev (xs : List ℚ) : ℚ :=
  qSqrt ((xs.map (fun x => (x - xs.sum / xs.length) ^ 2)).sum / xs.length)

/-- All-zero draw stream, used for concrete runs. -/
def rngZero : RNG := ⟨fun _ => 0, 0⟩

/-- Seeding model installing the all-zero stream for every seed. -/
def mtZero : Int → Nat → Nat := fun _ _ => 0

/-- Concrete three-location instance on the x-axis; all pairwise distances
are integers, and tour length depends on the visiting order
(`[0,1,2]` gives 8, `[1,0,2]` gives 10). -/
def locsW : List Point := [(1, 0), (2, 0), (4, 0)]

/-- Seeding model for a run whose best individual is lost from the final
population: the `sample` draws `(0,1,0)` build `[0,1,2]`, the
tournament of size 1 picks the sole individual, mutation swaps positions
0 and 1 (yielding the worse `[1,0,2]`), and the two large trailing draws
refuse further swaps. -/
def mtSeven : Int → Nat → Nat := fun _ n =>
  [0, 1, 0, 0, 0, 0, 0, 9007199254740991, 9007199254740991].getD n 0

/-! ### Fitness-order lemmas -/

theorem fitGt_some_iff (f g : ℚ × ℚ) :
    fitGt (some f) (some g) = true ↔ f.1 < g.1 ∨ (f.1 = g.1 ∧ f.2 < g.2) := by
  show (!(tupLe (wvalues f) (wvalues g))) = true ↔ _
  simp only [tupLe, wvalues]
  split_ifs with h1 h2
  · constructor
    · intro h; exact absurd h (by decide)
    · rintro (h | ⟨he, -⟩) <;> exfalso <;> linarith
  · have hfg : f.1 = g.1 := by linarith
    simp only [Bool.not_eq_true', decide_eq_false_iff_not, not_le]
    constructor
    · intro h; exact Or.inr ⟨hfg, by linarith⟩
    · rintro (h | ⟨-, h⟩) <;> linarith
  · simp only [Bool.not_false, true_iff]
    refine Or.inl ?_
    rcases lt_trichotomy f.1 g.1 with h | h | h
    · exact h
    · exact absurd (by rw [h]) h2
    · exact absurd (by linarith) h1

theorem fitGt_irrefl (a : Option (ℚ × ℚ)) : fitGt a a = false := by
  cases a with
  | none => rfl
  | some f =>
    rw [Bool.eq_false_iff]
    intro h
    rcases (fitGt_some_iff f f).mp h with h' | ⟨-, h'⟩ <;> exact lt_irrefl _ h'

theorem fitGt_trans {a b c : Option (ℚ × ℚ)} (hab : fitGt a b = true)
    (hbc : fitGt b c = true) : fitGt a c = true := by
  cases a with
  | none => simp [fitGt] at hab
  | some f =>
    cases b with
    | none => simp [fitGt] at hbc
    | some fb =>
      cases c with
      | none => rfl
      | some fc =>
        rcases (fitGt_some_iff f fb).mp hab with h1 | ⟨h1, h1'⟩ <;>
          rcases (fitGt_some_iff fb fc).mp hbc with h2 | ⟨h2, h2'⟩ <;>
          refine (fitGt_some_iff f fc).mpr ?_
        · exact Or.inl (by linarith)
        · exact Or.inl (by linarith)
        · exact Or.inl (by linarith)
        · exact Or.inr ⟨by linarith, by linarith⟩

theorem fitGt_asymm {a b : Option (ℚ × ℚ)} (h : fitGt a b = true) :
    fitGt b a = false := by
  rw [Bool.eq_false_iff]
  intro h'
  have := fitGt_trans h h'
  rw [fitGt_irrefl] at this
  exact Bool.false_ne_true this

/-! ### Permutation helper lemmas -/

theorem getD_cons_set_perm (x : Nat) :
    ∀ (l : List Nat) (j : Nat), j < l.length →
      (l.getD j 0 :: l.set j x).Perm (x :: l) := by
  intro l
  induction l with
  | nil => intro j h; simp at h
  | cons a t ih =>
    intro j h
    cases j with
    | zero =>
      simpa using List.Perm.swap x a t
    | succ j =>
      have hj : j < t.length := by simpa using h
      have step1 : (t.getD j 0 :: a :: t.set j x).Perm
          (a :: t.getD j 0 :: t.set j x) := List.Perm.swap _ _ _
      have step2 : (a :: t.getD j 0 :: t.set j x).Perm (a :: x :: t) :=
        (ih j hj).cons a
      have step3 : (a :: x :: t).Perm (x :: a :: t) := List.Perm.swap _ _ _
      simpa using (step1.trans step2).trans step3

theorem listSwap_perm (l : List Nat) (i j : Nat) (hi : i < l.length)
    (hj : j < l.length) : (listSwap l i j).Perm l := by
  have hj' : j < (l.set i (l.getD j 0)).length := by simpa using hj
  have hset : (l.set i (l.getD j 0)).getD j 0 = l.getD j 0 := by
    rw [List.getD_eq_getElem _ _ hj']
    rw [List.getElem_set]
    split
    · rfl
    · exact (List.getD_eq_getElem l 0 hj).symm
  have h2 := getD_cons_set_perm (l.getD i 0) (l.set i (l.getD j 0)) j hj'
  rw [hset] at h2
  have h1 := getD_cons_set_perm (l.getD j 0) l i hi
  exact (h2.trans h1).cons_inv

/-! ### Sampling produces permutations -/

theorem sampleGo_perm :
    ∀ (fuel : Nat) (pool acc : List Nat) (g : RNG), fuel ≤ pool.length →
      ((sampleGo fuel pool acc g).1).Perm (acc ++ pool.take fuel) := by
  intro fuel
  induction fuel with
  | zero => intro pool acc g _; simp [sampleGo]
  | succ fuel ih =>
    intro pool acc g hlen
    have hfuel : fuel < pool.length := hlen
    rcases hr : randbelow (fuel + 1) g with ⟨j, g2⟩
    have hjlt : j < fuel + 1 := by
      have h1 : (randbelow (fuel + 1) g).1 = j := by rw [hr]
      simp only [randbelow, RNG.next, Nat.succ_ne_zero, if_false] at h1
      exact h1 ▸ Nat.mod_lt _ (Nat.succ_pos fuel)
    have hjpool : j < pool.length := lt_of_lt_of_le hjlt hlen
    rw [sampleGo, hr]
    have ihp := ih (pool.set j (pool.getD fuel 0)) (acc ++ [pool.getD j 0]) g2
      (by simpa using le_of_lt hfuel)
    refine ihp.trans ?_
    rw [List.append_assoc]
    refine List.Perm.append_left acc ?_
    have htake : pool.take (fuel + 1) = pool.take fuel ++ [pool.getD fuel 0] := by
      rw [List.take_succ, List.getD_eq_getElem _ _ hfuel]
      simp [List.getElem?_eq_getElem hfuel]
    rw [htake]
    rcases Nat.lt_or_ge j fuel with hjf | hjf
    · rw [List.set_take]
      have hjt : j < (pool.take fuel).length := by
        simp only [List.length_take]
        exact lt_min hjf hjpool
      have hperm := getD_cons_set_perm (pool.getD fuel 0) (pool.take fuel) j hjt
      have hgd : (pool.take fuel).getD j 0 = pool.getD j 0 := by
        rw [List.getD_eq_getElem _ _ hjt, List.getD_eq_getElem _ _ hjpool]
        exact List.getElem_take pool
      rw [hgd] at hperm
      exact hperm.trans (List.perm_append_singleton _ _).symm
    · have hjeq : j = fuel := le_antisymm (Nat.lt_succ_iff.mp hjlt) hjf
      subst hjeq
      rw [List.set_take, List.set_eq_of_length_le (by simp [List.length_take])]
      exact (List.perm_append_singleton _ _).symm

/-- The initial individuals are permutations of `range num_locations`. -/
theorem pySample_perm (n : Nat) (g : RNG) :
    ((pySample n g).1).Perm (List.range n) := by
  have h := sampleGo_perm n (List.range n) [] g (by simp)
  rw [List.take_of_length_le (by simp)] at h
  simpa [pySample] using h

/-! ### Crossover preserves permutations -/

theorem getD_set_self {l : List Nat} {i : Nat} (x d : Nat) (h : i < l.length) :
    (l.set i x).getD i d = x := by
  rw [List.getD_eq_getElem _ _ (by simpa using h), List.getElem_set_self]

theorem getD_set_ne {l : List Nat} {i j : Nat} (x d : Nat) (h : i ≠ j) :
    (l.set i x).getD j d = l.getD j d := by
  rcases Nat.lt_or_ge j l.length with hj | hj
  · rw [List.getD_eq_getElem _ _ (by simpa using hj),
      List.getD_eq_getElem _ _ hj, List.getElem_set_ne h]
  · rw [List.getD_eq_default _ _ (by simpa using hj), List.getD_eq_default _ _ hj]

/-- The invariant `cxPartialyMatched` maintains for one individual and its
position map: the individual is a permutation of `range n` and `p` sends
every value to the position holding it. -/
def CxInv (n : Nat) (a p : List Nat) : Prop :=
  a.Perm (List.range n) ∧ p.length = n ∧
  ∀ w, w < n → p.getD w 0 < n ∧ a.getD (p.getD w 0) 0 = w

theorem perm_range_length {n : Nat} {a : List Nat} (h : a.Perm (List.range n)) :
    a.length = n := by
  simpa using h.length_eq

theorem perm_range_getD_lt {n : Nat} {a : List Nat} (h : a.Perm (List.range n))
    {i : Nat} (hi : i < n) : a.getD i 0 < n := by
  have hi' : i < a.length := by rw [perm_range_length h]; exact hi
  rw [List.getD_eq_getElem _ _ hi']
  have : a[i] ∈ a := List.getElem_mem hi'
  have := h.mem_iff.mp this
  simpa [List.mem_range] using this

theorem perm_range_getD_inj {n : Nat} {a : List Nat} (h : a.Perm (List.range n))
    {i j : Nat} (hi : i < n) (hj : j < n)
    (he : a.getD i 0 = a.getD j 0) : i = j := by
  have hnd : a.Nodup := h.nodup_iff.mpr (List.nodup_range n)
  have hi' : i < a.length := by rw [perm_range_length h]; exact hi
  have hj' : j < a.length := by rw [perm_range_length h]; exact hj
  rw [List.getD_eq_getElem _ _ hi', List.getD_eq_getElem _ _ hj'] at he
  exact (List.Nodup.getElem_inj_iff hnd).mp he

theorem foldl_set_length (a : List Nat) :
    ∀ (L : List Nat) (p : List Nat),
      (L.foldl (fun p i => p.set (a.getD i 0) i) p).length = p.length := by
  intro L
  induction L with
  | nil => intro p; rfl
  | cons x t ih => intro p; rw [List.foldl_cons, ih]; exact List.length_set ..

theorem foldl_set_getD_frozen (a : List Nat) :
    ∀ (L : List Nat) (p : List Nat) (t : Nat), (∀ i ∈ L, a.getD i 0 ≠ t) →
      (L.foldl (fun p i => p.set (a.getD i 0) i) p).getD t 0 = p.getD t 0 := by
  intro L
  induction L with
  | nil => intro p t _; rfl
  | cons x tl ih =>
    intro p t hfr
    rw [List.foldl_cons, ih _ _ (fun i hi => hfr i (List.mem_cons_of_mem x hi)),
      getD_set_ne _ _ (hfr x (List.mem_cons_self x tl))]

theorem foldl_set_getD_hits {n : Nat} {a : List Nat} (ha : a.Perm (List.range n)) :
    ∀ (L : List Nat) (p : List Nat), (∀ i ∈ L, i < n) → L.Nodup →
      p.length = n →
      ∀ i ∈ L, (L.foldl (fun p i => p.set (a.getD i 0) i) p).getD (a.getD i 0) 0 = i := by
  intro L
  induction L with
  | nil => intro p _ _ _ i hi; simp at hi
  | cons x t ih =>
    intro p hbound hnd hp i hi
    rw [List.foldl_cons]
    rcases List.mem_cons.mp hi with rfl | hmem
    · have hfr : ∀ j ∈ t, a.getD j 0 ≠ a.getD i 0 := by
        intro j hj he
        have hjn : j < n := hbound j (List.mem_cons_of_mem i hj)
        have hin : i < n := hbound i (List.mem_cons_self i t)
        have := perm_range_getD_inj ha hjn hin he
        subst this
        exact (List.nodup_cons.mp hnd).1 hj
      rw [foldl_set_getD_frozen a t _ _ hfr,
        getD_set_self _ _ (by rw [hp]; exact perm_range_getD_lt ha (hbound i (List.mem_cons_self i t)))]
    · exact ih _ (fun j hj => hbound j (List.mem_cons_of_mem x hj))
        (List.nodup_cons.mp hnd).2 (by rw [List.length_set]; exact hp) i hmem

/-- `buildPos` establishes the crossover invariant. -/
theorem buildPos_inv {n : Nat} {a : List Nat} (ha : a.Perm (List.range n)) :
    CxInv n a (buildPos n a) := by
  refine ⟨ha, ?_, ?_⟩
  · rw [buildPos, foldl_set_length]; exact List.length_replicate ..
  · intro w hw
    have hwmem : w ∈ a := ha.mem_iff.mpr (List.mem_range.mpr hw)
    obtain ⟨idx, hidx, hval⟩ := List.mem_iff_getElem.mp hwmem
    have hidxn : idx < n := by rw [← perm_range_length ha]; exact hidx
    have hget : a.getD idx 0 = w := by rw [List.getD_eq_getElem _ _ hidx]; exact hval
    have hb : (buildPos n a).getD w 0 = idx := by
      rw [← hget, buildPos]
      exact foldl_set_getD_hits ha (List.range n) _
        (fun i hi => List.mem_range.mp hi) (List.nodup_range n)
        (List.length_replicate ..) idx (List.mem_range.mpr hidxn)
    rw [hb, hget]
    exact ⟨hidxn, rfl⟩

/-- One side of one `cxPartialyMatched` matching-loop iteration preserves
the invariant: position `i` holds the incoming value, `v` is any value
below `n` (the value read from the other parent). -/
theorem cxSide_inv {n i : Nat} (hi : i < n) {a p : List Nat} {v : Nat}
    (hv : v < n) (H : CxInv n a p) :
    CxInv n ((a.set i v).set (p.getD v 0) (a.getD i 0))
      ((p.set (a.getD i 0) (p.getD v 0)).set v (p.getD (a.getD i 0) 0)) := by
  obtain ⟨ha, hplen, hinv⟩ := H
  have halen : a.length = n := perm_range_length ha
  have hia : i < a.length := by rw [halen]; exact hi
  have hu : a.getD i 0 < n := perm_range_getD_lt ha hi
  obtain ⟨hja, hjav⟩ := hinv v hv
  obtain ⟨hpu, hpua⟩ := hinv _ hu
  have hpui : p.getD (a.getD i 0) 0 = i :=
    perm_range_getD_inj ha hpu hi hpua
  have hswap : (a.set i v).set (p.getD v 0) (a.getD i 0) =
      listSwap a i (p.getD v 0) := by
    rw [listSwap, hjav]
  have haperm : ((a.set i v).set (p.getD v 0) (a.getD i 0)).Perm a := by
    rw [hswap]
    exact listSwap_perm a i _ hia (by rw [halen]; exact hja)
  refine ⟨haperm.trans ha, by simp [hplen], ?_⟩
  intro w hw
  set u := a.getD i 0 with hudef
  set ja := p.getD v 0 with hjadef
  by_cases hwv : w = v
  · subst hwv
    have h1 : ((p.set u ja).set w (p.getD u 0)).getD w 0 = p.getD u 0 :=
      getD_set_self _ _ (by rw [List.length_set, hplen]; exact hw)
    rw [h1, hpui]
    refine ⟨hi, ?_⟩
    by_cases hjai : ja = i
    · have hvu : w = u := by rw [← hjav, hjai, ← hudef]
      rw [hjai, getD_set_self _ _ (by rw [List.length_set, halen]; exact hi)]
      exact hvu.symm
    · rw [getD_set_ne _ _ hjai, getD_set_self _ _ hia]
  · by_cases hwu : w = u
    · have hvu : v ≠ u := fun h => hwv (hwu.trans h.symm)
      have h1 : ((p.set u ja).set v (p.getD u 0)).getD w 0 = ja := by
        rw [hwu, getD_set_ne _ _ hvu, getD_set_self _ _ (by rw [hplen]; exact hu)]
      rw [h1]
      refine ⟨hja, ?_⟩
      rw [getD_set_self _ _ (by rw [List.length_set, halen]; exact hja)]
      exact hwu.symm
    · have h1 : ((p.set u ja).set v (p.getD u 0)).getD w 0 = p.getD w 0 := by
        rw [getD_set_ne _ _ (fun h => hwv h.symm), getD_set_ne _ _ (fun h => hwu h.symm)]
      rw [h1]
      obtain ⟨hpw, hpwa⟩ := hinv w hw
      refine ⟨hpw, ?_⟩
      have hpwi : p.getD w 0 ≠ i := by
        intro h
        exact hwu (by rw [← hpwa, h, ← hudef])
      have hpwja : p.getD w 0 ≠ ja := by
        intro h
        exact hwv (by rw [← hpwa, h, hjadef, hjav])
      rw [getD_set_ne _ _ (fun h => hpwja h.symm), getD_set_ne _ _ (fun h => hpwi h.symm)]
      exact hpwa

theorem cxStep_inv {n i : Nat} (hi : i < n) {a b p q : List Nat}
    (Ha : CxInv n a p) (Hb : CxInv n b q) :
    CxInv n (cxStep (a, b, p, q) i).1 (cxStep (a, b, p, q) i).2.2.1 ∧
    CxInv n (cxStep (a, b, p, q) i).2.1 (cxStep (a, b, p, q) i).2.2.2 := by
  have htemp1 : a.getD i 0 < n := perm_range_getD_lt Ha.1 hi
  have htemp2 : b.getD i 0 < n := perm_range_getD_lt Hb.1 hi
  constructor
  · simpa [cxStep] using cxSide_inv hi htemp2 Ha
  · have h := cxSide_inv hi htemp1 Hb
    simp only [cxStep]
    by_cases he : a.getD i 0 = b.getD i 0
    · rw [he]
      rw [he] at h
      exact h
    · have hq : (q.set (a.getD i 0) (q.getD (b.getD i 0) 0)).set (b.getD i 0)
          (q.getD (a.getD i 0) 0) =
          (q.set (b.getD i 0) (q.getD (a.getD i 0) 0)).set (a.getD i 0)
          (q.getD (b.getD i 0) 0) :=
        List.set_comm _ _ q he
      rw [hq]
      exact h

theorem cxLoop_inv {n : Nat} :
    ∀ (L : List Nat), (∀ i ∈ L, i < n) →
    ∀ (a b p q : List Nat), CxInv n a p → CxInv n b q →
      CxInv n (L.foldl cxStep (a, b, p, q)).1
        (L.foldl cxStep (a, b, p, q)).2.2.1 ∧
      CxInv n (L.foldl cxStep (a, b, p, q)).2.1
        (L.foldl cxStep (a, b, p, q)).2.2.2 := by
  intro L
  induction L with
  | nil => intro _ a b p q Ha Hb; exact ⟨Ha, Hb⟩
  | cons x t ih =>
    intro hbound a b p q Ha Hb
    have hx : x < n := hbound x (List.mem_cons_self x t)
    obtain ⟨Ha', Hb'⟩ := cxStep_inv hx Ha Hb
    rw [List.foldl_cons]
    rcases hs : cxStep (a, b, p, q) x with ⟨a', b', p', q'⟩
    rw [hs] at Ha' Hb'
    exact ih (fun i hi => hbound i (List.mem_cons_of_mem x hi)) a' b' p' q' Ha' Hb'

/-- Both children of `cxPartialyMatched` applied to two permutations of
`range n` are again permutations of `range n` (for every random state). -/
theorem cxPartialyMatched_perm {n : Nat} {pa pb : List Nat} (g : RNG)
    (h1 : pa.Perm (List.range n)) (h2 : pb.Perm (List.range n)) :
    ((cxPartialyMatched pa pb g).1).Perm (List.range n) ∧
    ((cxPartialyMatched pa pb g).2.1).Perm (List.range n) := by
  have hsize : min pa.length pb.length = n := by
    rw [perm_range_length h1, perm_range_length h2, Nat.min_self]
  rcases Nat.eq_zero_or_pos n with hn | hn
  · subst hn
    have hpa : pa = [] := List.eq_nil_of_length_eq_zero (perm_range_length h1)
    have hpb : pb = [] := List.eq_nil_of_length_eq_zero (perm_range_length h2)
    subst hpa; subst hpb
    have hnil : ∀ (L : List Nat) (p q : List Nat),
        (L.foldl cxStep (([] : List Nat), ([] : List Nat), p, q)).1 = [] ∧
        (L.foldl cxStep (([] : List Nat), ([] : List Nat), p, q)).2.1 = [] := by
      intro L
      induction L with
      | nil => intro p q; exact ⟨rfl, rfl⟩
      | cons x t ih => intro p q; rw [List.foldl_cons]; exact ih _ _
    simp only [cxPartialyMatched]
    constructor
    · rw [(hnil _ _ _).1]; simp
    · rw [(hnil _ _ _).2]; simp
  · simp only [cxPartialyMatched, hsize]
    rcases hc1 : randint 0 n g with ⟨c1, ga⟩
    rcases hc2 : randint 0 (n - 1) ga with ⟨c2, gb⟩
    have hc2n : c2 < n := by
      have : (randint 0 (n - 1) ga).1 = c2 := by rw [hc2]
      simp only [randint, randbelow, RNG.next] at this
      rcases Nat.eq_zero_or_pos (n - 1 + 1 - 0) with hz | hp
      · omega
      · rw [if_neg (by omega)] at this
        have := Nat.mod_lt (ga.stream ga.pos) (by omega : 0 < n - 1 + 1 - 0)
        omega
    have hc1n : c1 ≤ n := by
      have : (randint 0 n g).1 = c1 := by rw [hc1]
      simp only [randint, randbelow, RNG.next] at this
      rw [if_neg (by omega)] at this
      have := Nat.mod_lt (g.stream g.pos) (by omega : 0 < n + 1 - 0)
      omega
    set cxpoint1 := if c2 ≥ c1 then c1 else c2 with hcx1
    set cxpoint2 := if c2 ≥ c1 then c2 + 1 else c1 with hcx2
    have hbound : ∀ i ∈ List.range' cxpoint1 (cxpoint2 - cxpoint1), i < n := by
      intro i hi
      obtain ⟨t, ht, hit⟩ := List.mem_range'.mp hi
      have h2n : cxpoint2 ≤ n := by
        rw [hcx2]; split <;> omega
      omega
    have hres := cxLoop_inv (List.range' cxpoint1 (cxpoint2 - cxpoint1)) hbound
      pa pb (buildPos n pa) (buildPos n pb) (buildPos_inv h1) (buildPos_inv h2)
    exact ⟨hres.1.1, hres.2.1⟩

/-! ### Mutation preserves permutations -/

/-- Shuffle-index mutation returns a rearrangement of its input for every
random state.  `size = 1` is excluded: there Python's
`random.randint(0, size - 2)` raises `ValueError`, so no individual is
produced at all. -/
theorem mutShuffleIndexes_perm (q0 : List Nat) (indpb : ℚ) (g : RNG)
    (hq : q0.length ≠ 1) :
    ((mutShuffleIndexes q0 indpb g).1).Perm q0 := by
  rcases Nat.eq_zero_or_pos q0.length with hz | hpos
  · have : q0 = [] := List.eq_nil_of_length_eq_zero hz
    subst this
    simp [mutShuffleIndexes]
  · have hsize : 2 ≤ q0.length := by omega
    suffices h : ∀ (L : List Nat), (∀ i ∈ L, i < q0.length) →
        ∀ (st : List Nat × RNG), st.1.Perm q0 →
        ((L.foldl
          (fun (s : List Nat × RNG) i =>
            let (ind, g) := s
            let (r, g) := randfloat g
            if r < indpb then
              let (si, g) := randint 0 (q0.length - 2) g
              let swapIndx := if si ≥ i then si + 1 else si
              (listSwap ind i swapIndx, g)
            else (ind, g))
          st).1).Perm q0 by
      have := h (List.range q0.length) (fun i hi => List.mem_range.mp hi)
        (q0, g) (List.Perm.refl q0)
      simpa [mutShuffleIndexes] using this
    intro L
    induction L with
    | nil => intro _ st hst; exact hst
    | cons x t ih =>
      intro hbound st hst
      rw [List.foldl_cons]
      rcases st with ⟨ind, gs⟩
      have hlen : ind.length = q0.length := hst.length_eq
      have hx : x < ind.length := by rw [hlen]; exact hbound x (List.mem_cons_self x t)
      rcases hrf : randfloat gs with ⟨r, g1⟩
      simp only [hrf]
      by_cases hr : r < indpb
      · rw [if_pos hr]
        rcases hsi : randint 0 (q0.length - 2) g1 with ⟨si, g2⟩
        simp only [hsi]
        have hsival : si < q0.length - 1 := by
          have : (randint 0 (q0.length - 2) g1).1 = si := by rw [hsi]
          simp only [randint, randbelow, RNG.next] at this
          rw [if_neg (by omega)] at this
          have := Nat.mod_lt (g1.stream g1.pos) (by omega : 0 < q0.length - 2 + 1 - 0)
          omega
        have hswap : (if si ≥ x then si + 1 else si) < ind.length := by
          rw [hlen]; split <;> omega
        exact ih (fun i hi => hbound i (List.mem_cons_of_mem x hi))
          (listSwap ind x _, g2) ((listSwap_perm ind x _ hx hswap).trans hst)
      · rw [if_neg hr]
        exact ih (fun i hi => hbound i (List.mem_cons_of_mem x hi)) (ind, g1) hst

/-! ### Hall-of-fame lemmas -/

theorem hofUpdate_shape :
    ∀ (pop : List Ind) (b : Ind), ∃ b', hofUpdate (some b) pop = some b' ∧
      (b' = b ∨ fitGt b'.fit b.fit = true) := by
  intro pop
  induction pop with
  | nil => intro b; exact ⟨b, rfl, Or.inl rfl⟩
  | cons ind rest ih =>
    intro b
    show ∃ b', hofUpdate
      (some (if fitGt ind.fit b.fit then (if ind.perm = b.perm then b else ind) else b))
      rest = some b' ∧ _
    by_cases hgt : fitGt ind.fit b.fit = true
    · by_cases hperm : ind.perm = b.perm
      · rw [if_pos hgt, if_pos hperm]
        exact ih b
      · rw [if_pos hgt, if_neg hperm]
        obtain ⟨b', hb', hrel⟩ := ih ind
        refine ⟨b', hb', ?_⟩
        rcases hrel with rfl | hbt
        · exact Or.inr hgt
        · exact Or.inr (fitGt_trans hbt hgt)
    · rw [if_neg hgt]
      exact ih b

theorem hofUpdate_mem :
    ∀ (pop : List Ind) (b b' : Ind), hofUpdate (some b) pop = some b' →
      b' = b ∨ b' ∈ pop := by
  intro pop
  induction pop with
  | nil =>
    intro b b' h
    exact Or.inl (Option.some.inj h).symm
  | cons ind rest ih =>
    intro b b' h
    replace h : hofUpdate
        (some (if fitGt ind.fit b.fit then (if ind.perm = b.perm then b else ind) else b))
        rest = some b' := h
    by_cases hgt : fitGt ind.fit b.fit = true
    · by_cases hperm : ind.perm = b.perm
      · rw [if_pos hgt, if_pos hperm] at h
        rcases ih b b' h with hb | hr
        · exact Or.inl hb
        · exact Or.inr (List.mem_cons_of_mem ind hr)
      · rw [if_pos hgt, if_neg hperm] at h
        rcases ih ind b' h with hb | hr
        · exact Or.inr (hb ▸ List.mem_cons_self ind rest)
        · exact Or.inr (List.mem_cons_of_mem ind hr)
    · rw [if_neg hgt] at h
      rcases ih b b' h with hb | hr
      · exact Or.inl hb
      · exact Or.inr (List.mem_cons_of_mem ind hr)

theorem hofUpdate_not_beaten :
    ∀ (pop : List Ind) (b b' : Ind), hofUpdate (some b) pop = some b' →
      (∀ x ∈ b :: pop, ∀ y ∈ b :: pop, x.perm = y.perm → x.fit = y.fit) →
      (∀ x ∈ pop, fitGt x.fit b'.fit = false) ∧ fitGt b.fit b'.fit = false := by
  intro pop
  induction pop with
  | nil =>
    intro b b' h _
    obtain rfl : b = b' := Option.some.inj h
    exact ⟨fun x hx => absurd hx (List.not_mem_nil x), fitGt_irrefl _⟩
  | cons ind rest ih =>
    intro b b' h coh
    replace h : hofUpdate
        (some (if fitGt ind.fit b.fit then (if ind.perm = b.perm then b else ind) else b))
        rest = some b' := h
    have hbmem : b ∈ b :: ind :: rest := List.mem_cons_self b _
    have hindmem : ind ∈ b :: ind :: rest :=
      List.mem_cons_of_mem b (List.mem_cons_self ind rest)
    by_cases hgt : fitGt ind.fit b.fit = true
    · by_cases hperm : ind.perm = b.perm
      · exfalso
        have hfit : ind.fit = b.fit := coh ind hindmem b hbmem hperm
        rw [hfit, fitGt_irrefl] at hgt
        exact Bool.false_ne_true hgt
      · rw [if_pos hgt, if_neg hperm] at h
        have coh' : ∀ x ∈ ind :: rest, ∀ y ∈ ind :: rest, x.perm = y.perm → x.fit = y.fit := by
          intro x hx y hy
          exact coh x (List.mem_cons_of_mem b hx) y (List.mem_cons_of_mem b hy)
        obtain ⟨hrest, hind⟩ := ih ind b' h coh'
        obtain ⟨b'', hb'', hrel⟩ := hofUpdate_shape rest ind
        rw [h] at hb''
        obtain rfl : b' = b'' := Option.some.inj hb''
        refine ⟨?_, ?_⟩
        · intro x hx
          rcases List.mem_cons.mp hx with rfl | hxr
          · exact hind
          · exact hrest x hxr
        · cases hc : fitGt b.fit b'.fit
          · rfl
          · exfalso
            rcases hrel with rfl | hbt
            · rw [fitGt_asymm hgt] at hc; exact Bool.false_ne_true hc
            · have := fitGt_trans hc hbt
              rw [fitGt_asymm hgt] at this
              exact Bool.false_ne_true this
    · rw [if_neg hgt] at h
      have hsub : ∀ z : Ind, z ∈ b :: rest → z ∈ b :: ind :: rest := by
        intro z hz
        rcases List.mem_cons.mp hz with hz1 | hz2
        · rw [hz1]; exact List.mem_cons_self b _
        · exact List.mem_cons_of_mem b (List.mem_cons_of_mem ind hz2)
      have coh' : ∀ x ∈ b :: rest, ∀ y ∈ b :: rest, x.perm = y.perm → x.fit = y.fit :=
        fun x hx y hy => coh x (hsub x hx) y (hsub y hy)
      obtain ⟨hrest, hb⟩ := ih b b' h coh'
      obtain ⟨b'', hb'', hrel⟩ := hofUpdate_shape rest b
      rw [h] at hb''
      obtain rfl : b' = b'' := Option.some.inj hb''
      refine ⟨?_, hb⟩
      intro x hx
      rcases List.mem_cons.mp hx with rfl | hxr
      · cases hc : fitGt x.fit b'.fit
        · rfl
        · exfalso
          rcases hrel with rfl | hbt
          · rw [hc] at hgt; exact hgt rfl
          · have := fitGt_trans hc hbt
            rw [this] at hgt; exact hgt rfl
      · exact hrest x hxr

/-! ### Length preservation through one run -/

theorem selRandom_length (individuals : List Ind) :
    ∀ (k : Nat) (g : RNG), ((selRandom individuals k g).1).length = k := by
  intro k
  induction k with
  | zero => intro g; rfl
  | succ k ih =>
    intro g
    simp only [selRandom]
    rcases hch : choice individuals default g with ⟨x, g'⟩
    simp only [hch]
    rcases hrest : selRandom individuals k g' with ⟨rest, g''⟩
    simp only [hrest, List.length_cons]
    have := ih g'
    rw [hrest] at this
    exact congrArg Nat.succ this

theorem selTournament_length (individuals : List Ind) (ts : Nat) :
    ∀ (k : Nat) (g : RNG), ((selTournament individuals ts k g).1).length = k := by
  intro k
  induction k with
  | zero => intro g; rfl
  | succ k ih =>
    intro g
    simp only [selTournament]
    rcases hasp : selRandom individuals ts g with ⟨asp, g'⟩
    simp only [hasp]
    rcases hrest : selTournament individuals ts k g' with ⟨rest, g''⟩
    simp only [hrest, List.length_cons]
    have := ih g'
    rw [hrest] at this
    exact congrArg Nat.succ this

theorem foldl_pair_length {β : Type} (f : (List Ind × RNG) → β → (List Ind × RNG))
    (hf : ∀ s x, ((f s x).1).length = s.1.length) :
    ∀ (L : List β) (s : List Ind × RNG), ((L.foldl f s).1).length = s.1.length := by
  intro L
  induction L with
  | nil => intro s; rfl
  | cons x t ih => intro s; rw [List.foldl_cons, ih, hf]

theorem varAnd_length (offspring : List Ind) (cxpb mutpb : ℚ) (g : RNG) :
    ((varAnd offspring cxpb mutpb g).1).length = offspring.length := by
  unfold varAnd
  rw [foldl_pair_length, foldl_pair_length]
  · intro s x
    rcases s with ⟨l, gg⟩
    dsimp only
    rcases hr : randfloat gg with ⟨r, g1⟩
    simp only [hr]
    split
    · rcases hc : cxPartialyMatched (l.getD (x - 1) default).perm
        (l.getD x default).perm g1 with ⟨c1, c2, g2⟩
      simp only [hc, List.length_set]
    · rfl
  · intro s x
    rcases s with ⟨l, gg⟩
    dsimp only
    rcases hr : randfloat gg with ⟨r, g1⟩
    simp only [hr]
    split
    · rcases hm : mutShuffleIndexes (l.getD x default).perm (mkRat 1 20) g1 with ⟨m, g2⟩
      simp only [hm, List.length_set]
    · rfl

theorem evalPop_length (locations : List Point) (depot : Point)
    (numVehicles : Nat) (pop : List Ind) :
    (evalPop locations depot numVehicles pop).length = pop.length :=
  List.length_map ..

theorem eaGen_pop_length (locations : List Point) (depot : Point)
    (numVehicles : Nat) (cxpb mutpb : ℚ) (ts gen : Nat) (pop : List Ind)
    (hof : Option Ind) (g : RNG) :
    ((eaGen locations depot numVehicles cxpb mutpb ts gen pop hof g).1).length =
      pop.length := by
  simp only [eaGen]
  rcases hsel : selTournament pop ts pop.length g with ⟨o1, g1⟩
  simp only [hsel]
  rcases hva : varAnd o1 cxpb mutpb g1 with ⟨o2, g2⟩
  simp only [hva]
  rw [evalPop_length]
  have h1 := varAnd_length o1 cxpb mutpb g1
  rw [hva] at h1
  have h2 := selTournament_length pop ts pop.length g
  rw [hsel] at h2
  rw [h1, h2]

theorem eaGen_record_gen (locations : List Point) (depot : Point)
    (numVehicles : Nat) (cxpb mutpb : ℚ) (ts gen : Nat) (pop : List Ind)
    (hof : Option Ind) (g : RNG) :
    ((eaGen locations depot numVehicles cxpb mutpb ts gen pop hof g).2.2.2).gen =
      gen := by
  simp only [eaGen]
  rcases hsel : selTournament pop ts pop.length g with ⟨o1, g1⟩
  simp only [hsel]
  rcases hva : varAnd o1 cxpb mutpb g1 with ⟨o2, g2⟩
  simp only [hva]
  rfl

theorem eaLoop_pop_length (locations : List Point) (depot : Point)
    (numVehicles : Nat) (cxpb mutpb : ℚ) (ts : Nat) :
    ∀ (m gen : Nat) (pop : List Ind) (hof : Option Ind) (g : RNG),
      (((eaLoop locations depot numVehicles cxpb mutpb ts m gen pop hof g).1).1).length =
        pop.length := by
  intro m
  induction m with
  | zero => intro gen pop hof g; rfl
  | succ m ih =>
    intro gen pop hof g
    simp only [eaLoop]
    rw [ih]
    exact eaGen_pop_length ..

theorem eaLoop_logbook_length (locations : List Point) (depot : Point)
    (numVehicles : Nat) (cxpb mutpb : ℚ) (ts : Nat) :
    ∀ (m gen : Nat) (pop : List Ind) (hof : Option Ind) (g : RNG),
      ((eaLoop locations depot numVehicles cxpb mutpb ts m gen pop hof g).2).length =
        m := by
  intro m
  induction m with
  | zero => intro gen pop hof g; rfl
  | succ m ih =>
    intro gen pop hof g
    simp only [eaLoop, List.length_cons]
    rw [ih]

theorem eaLoop_logbook_gen (locations : List Point) (depot : Point)
    (numVehicles : Nat) (cxpb mutpb : ℚ) (ts : Nat) :
    ∀ (m gen : Nat) (pop : List Ind) (hof : Option Ind) (g : RNG) (k : Nat),
      k < m →
      (((eaLoop locations depot numVehicles cxpb mutpb ts m gen pop hof g).2).getD
        k default).gen = gen + k := by
  intro m
  induction m with
  | zero => intro gen pop hof g k hk; omega
  | succ m ih =>
    intro gen pop hof g k hk
    simp only [eaLoop]
    cases k with
    | zero =>
      simpa using eaGen_record_gen locations depot numVehicles cxpb mutpb ts gen pop hof g
    | succ k =>
      simp only [eaLoop, List.getD_cons_succ]
      have := ih (gen + 1)
        (eaGen locations depot numVehicles cxpb mutpb ts gen pop hof g).1
        (eaGen locations depot numVehicles cxpb mutpb ts gen pop hof g).2.1
        (eaGen locations depot numVehicles cxpb mutpb ts gen pop hof g).2.2.1
        k (by omega)
      rw [this]
      omega

theorem initPopulation_length (nl : Nat) :
    ∀ (n : Nat) (g : RNG), ((initPopulation nl n g).1).length = n := by
  intro n
  induction n with
  | zero => intro g; rfl
  | succ n ih =>
    intro g
    simp only [initPopulation]
    rcases hin : initIndividual nl g with ⟨ind, g'⟩
    simp only [hin]
    rcases hrest : initPopulation nl n g' with ⟨rest, g''⟩
    simp only [hrest, List.length_cons]
    have := ih g'
    rw [hrest] at this
    exact congrArg Nat.succ this

/-! ### Decoder position characterisation -/

theorem posList_zero {i nv : Nat} (hnv : 0 < nv) : posList 0 i nv = [] := by
  unfold posList
  rw [Nat.div_eq_of_lt (by omega)]
  rfl

theorem posList_eq_filter {nv i : Nat} (hnv : 0 < nv) (hi : i < nv) :
    ∀ L : Nat, posList L i nv =
      (List.range L).filter (fun j => j % nv == i) := by
  intro L
  induction L with
  | zero =>
    rw [posList_zero hnv]
    rfl
  | succ L ihL =>
    rw [List.range_succ, List.filter_append, ← ihL]
    by_cases hm : L % nv = i
    · have hfl : (List.filter (fun j => j % nv == i) [L]) = [L] := by
        simp [List.filter_cons, hm]
      rw [hfl]
      have hiL : i ≤ L := by
        have := Nat.mod_le L nv
        omega
      have hLd := Nat.div_add_mod L nv
      have h1 : L - i = nv * (L / nv) := by omega
      unfold posList
      have hc : (L - i + nv - 1) / nv = L / nv := by
        have h2 : L - i + nv - 1 = (nv - 1) + nv * (L / nv) := by omega
        rw [h2, Nat.add_mul_div_left _ _ hnv, Nat.div_eq_of_lt (by omega)]
        omega
      have hc' : (L + 1 - i + nv - 1) / nv = L / nv + 1 := by
        have hmul : nv * (L / nv + 1) = nv * (L / nv) + nv := by ring
        have h3 : L + 1 - i + nv - 1 = nv * (L / nv + 1) := by omega
        rw [h3, Nat.mul_div_cancel_left _ hnv]
      rw [hc, hc', List.range'_concat]
      have hlast : i + nv * (L / nv) = L := by omega
      rw [hlast]
    · have hfl : (List.filter (fun j => j % nv == i) [L]) = [] := by
        simp [List.filter_cons, hm]
      rw [hfl, List.append_nil]
      by_cases hiL : i ≤ L
      · have hne0 : L - i ≠ 0 := by
          intro h0
          apply hm
          have : L = i := by omega
          rw [this]
          exact Nat.mod_eq_of_lt hi
        have hd0 : (L - i) % nv ≠ 0 := by
          intro h0
          apply hm
          have hdm := Nat.div_add_mod (L - i) nv
          have hL : L = i + nv * ((L - i) / nv) := by omega
          rw [hL, Nat.add_mul_mod_self_left]
          exact Nat.mod_eq_of_lt hi
        unfold posList
        have h3 : L + 1 - i + nv - 1 = (L - i) + nv := by omega
        have h2 : L - i + nv - 1 = ((L - i) - 1) + nv := by omega
        rw [h3, h2, Nat.add_div_right _ hnv, Nat.add_div_right _ hnv]
        have hsd := Nat.succ_div (L - i - 1) nv
        have hd : L - i - 1 + 1 = L - i := by omega
        rw [hd] at hsd
        have hnd : ¬ nv ∣ (L - i) := fun hdvd =>
          hd0 (Nat.mod_eq_zero_of_dvd hdvd)
        rw [if_neg hnd, Nat.add_zero] at hsd
        rw [hsd]
      · unfold posList
        have h3 : L + 1 - i + nv - 1 = nv - 1 := by omega
        have h2 : L - i + nv - 1 = nv - 1 := by omega
        rw [h3, h2]

/-! ### Route distance as a consecutive-leg sum -/

theorem routeDistance_eq_legSum : ∀ r : List Point, routeDistance r = legSum r := by
  intro r
  induction r with
  | nil => rfl
  | cons p tail ih =>
    cases tail with
    | nil => rfl
    | cons q rest =>
      have hstep : routeDistance (p :: q :: rest) =
          euclid p q + routeDistance (q :: rest) := by
        simp only [routeDistance, List.length_cons, Nat.add_sub_cancel,
          List.range_succ_eq_map, List.map_cons, List.sum_cons, List.map_map]
        congr 1
      rw [hstep, ih]
      rfl

/-! ### Non-negativity and empty routes -/

theorem divNat_eq (a : ℚ) (n : Nat) : divNat a n = a / (n : ℚ) := by
  rw [divNat, Rat.mkRat_eq_div]
  push_cast
  rw [div_mul_eq_div_div, Rat.num_div_den]

theorem npStd_eq_popStdDev (xs : List ℚ) : npStd xs = popStdDev xs := by
  simp [npStd, popStdDev, npMean, divNat_eq]

theorem qSqrt_nonneg (q : ℚ) : 0 ≤ qSqrt q := by
  unfold qSqrt
  split
  · exact le_refl 0
  · rw [divNat_eq]
    positivity

theorem euclid_nonneg (p q : Point) : 0 ≤ euclid p q := qSqrt_nonneg _

theorem routeDistance_nonneg (r : List Point) : 0 ≤ routeDistance r := by
  apply List.sum_nonneg
  intro x hx
  obtain ⟨k, -, rfl⟩ := List.mem_map.mp hx
  exact euclid_nonneg _ _

theorem npStd_nonneg (xs : List ℚ) : 0 ≤ npStd xs := qSqrt_nonneg _

theorem evaluateVRP_fst_nonneg (locations : List Point) (depot : Point)
    (numVehicles : Nat) (individual : List Nat) :
    0 ≤ (evaluateVRP locations depot numVehicles individual).1 := by
  simp only [evaluateVRP]
  apply List.sum_nonneg
  intro x hx
  obtain ⟨i, -, rfl⟩ := List.mem_map.mp hx
  exact routeDistance_nonneg _

theorem evaluateVRP_snd_nonneg (locations : List Point) (depot : Point)
    (numVehicles : Nat) (individual : List Nat) :
    0 ≤ (evaluateVRP locations depot numVehicles individual).2 :=
  npStd_nonneg _

theorem evalRoute_empty (locations : List Point) (depot : Point)
    {numVehicles : Nat} (individual : List Nat) {i : Nat}
    (h : individual.length ≤ i) (hnv : 0 < numVehicles) :
    evalRoute locations depot numVehicles individual i = [depot, depot] := by
  unfold evalRoute posList
  rw [Nat.div_eq_of_lt (by omega)]
  rfl

theorem routeDistance_pair (depot : Point) :
    routeDistance [depot, depot] = 0 := by
  rw [routeDistance_eq_legSum]
  show euclid depot depot + legSum [depot] = 0
  have h : euclid depot depot = 0 := by simp [euclid, qSqrt]
  rw [h]
  show (0 : ℚ) + 0 = 0
  rw [add_zero]

/-! ### Logbook structure of one run -/

theorem eaSimple_logbook_length (locations : List Point) (depot : Point)
    (numVehicles : Nat) (cxpb mutpb : ℚ) (ts : Nat) (ngen : Int)
    (pop0 : List Ind) (g : RNG) :
    ((eaSimple locations depot numVehicles cxpb mutpb ts ngen pop0 g).logbook).length =
      ngen.toNat + 1 := by
  simp only [eaSimple, List.length_cons]
  rw [eaLoop_logbook_length]

theorem eaSimple_logbook_gen (locations : List Point) (depot : Point)
    (numVehicles : Nat) (cxpb mutpb : ℚ) (ts : Nat) (ngen : Int)
    (pop0 : List Ind) (g : RNG) (k : Nat) (hk : k < ngen.toNat + 1) :
    (((eaSimple locations depot numVehicles cxpb mutpb ts ngen pop0 g).logbook).getD
      k default).gen = k := by
  simp only [eaSimple]
  cases k with
  | zero => rfl
  | succ k =>
    rw [List.getD_cons_succ,
      eaLoop_logbook_gen locations depot numVehicles cxpb mutpb ts ngen.toNat 1 _ _ _ k (by omega)]
    omega

theorem eaSimple_logbook_head (locations : List Point) (depot : Point)
    (numVehicles : Nat) (cxpb mutpb : ℚ) (ts : Nat) (ngen : Int)
    (pop0 : List Ind) (g : RNG) :
    ((eaSimple locations depot numVehicles cxpb mutpb ts ngen pop0 g).logbook).getD
      0 default =
      mkRecord 0 (countInvalid pop0) (evalPop locations depot numVehicles pop0) := by
  simp only [eaSimple, List.getD_cons_zero]

theorem eaGen_hof (locations : List Point) (depot : Point) (numVehicles : Nat)
    (cxpb mutpb : ℚ) (ts gen : Nat) (pop : List Ind) (hof : Option Ind)
    (g : RNG) :
    (eaGen locations depot numVehicles cxpb mutpb ts gen pop hof g).2.1 =
      hofUpdate hof (evalPop locations depot numVehicles
        ((varAnd ((selTournament pop ts pop.length g).1) cxpb mutpb
          ((selTournament pop ts pop.length g).2)).1)) := by
  simp only [eaGen]

/-! ### Claim theorems -/

/-- C1 (amended): `solve` performs no validation at entry: no
`InvalidConfig` or `EmptyInstance` error exists in the code, and for
every configuration — including `pop_size < tournsize`, crossover or
mutation probabilities outside `[0, 1]` and negative `ngen` — a call with
at least one individual, a positive tournament size and at least two
locations runs the GA to completion and returns a final population of
`pop_size` individuals. -/
theorem C1_solve_never_validates (mt : Int → Nat → Nat) (g : RNG)
    (locations : List Point) (depot : Point) (numVehicles : Nat)
    (cfg : GaConfig) (h1 : 1 ≤ cfg.popSize) (h2 : 1 ≤ cfg.tournsize)
    (h3 : 2 ≤ locations.length) :
    ((solve mt g locations depot numVehicles cfg).pop).length = cfg.popSize := by
  simp only [solve, eaSimple]
  rw [eaLoop_pop_length, evalPop_length, initPopulation_length]

theorem C1_witness :
    ((solve mtZero rngZero [(0, 0), (1, 0)] (0, 0) 1 ⟨1, mkRat 3 2, 0, 1, 3, 0⟩).pop).length
      = 1 :=
  C1_solve_never_validates mtZero rngZero [(0, 0), (1, 0)] (0, 0) 1
    ⟨1, mkRat 3 2, 0, 1, 3, 0⟩ (by decide) (by decide) (by decide)

/-- C1 counterexample: a concrete invalid input per the claim — zero
locations (`EmptyInstance`), `pop_size = 1 < tournsize = 3` and crossover
probability `3/2 ∉ [0,1]` (`InvalidConfig`) — on which `solve` raises
nothing and runs the whole GA (ngen = 2): it returns a completed run with a
population of one individual holding the empty permutation with fitness
`(0, 0)`, contradicting "fails fast ... no partial run is started". -/
theorem C1_counterexample :
    ((solve mtZero rngZero [] (5, 5) 1 ⟨1, mkRat 3 2, 0, 2, 3, 0⟩).pop).length = 1 ∧
    (solve mtZero rngZero [] (5, 5) 1 ⟨1, mkRat 3 2, 0, 2, 3, 0⟩).best =
      ⟨[], some (0, 0)⟩ ∧
    (solve mtZero rngZero [] (5, 5) 1 ⟨1, mkRat 3 2, 0, 2, 3, 0⟩).hof =
      some ⟨[], some (0, 0)⟩ := by
  with_unfolding_all decide

/-- C2 (amended): the per-generation history exists only inside the GA
loop: the `eaSimple` logbook is an append-only sequence of `ngen + 1`
records whose `k`-th record carries generation number `k`, and whose head
record is compiled over the evaluated initial population — but `solve`
discards that logbook (the `eaSimple` call is unassigned) and returns the
`Statistics` aggregator object instead, which holds no per-generation
records. -/
theorem C2_stats_discarded (locations : List Point) (depot : Point)
    (numVehicles : Nat) (cxpb mutpb : ℚ) (ts : Nat) (ngen : Int)
    (pop0 : List Ind) (g : RNG) (mt : Int → Nat → Nat) (gp : RNG)
    (cfg : GaConfig) :
    ((eaSimple locations depot numVehicles cxpb mutpb ts ngen pop0 g).logbook).length
        = ngen.toNat + 1 ∧
    (∀ k, k < ngen.toNat + 1 →
      (((eaSimple locations depot numVehicles cxpb mutpb ts ngen pop0 g).logbook).getD
        k default).gen = k) ∧
    ((eaSimple locations depot numVehicles cxpb mutpb ts ngen pop0 g).logbook).getD
        0 default =
      mkRecord 0 (countInvalid pop0) (evalPop locations depot numVehicles pop0) ∧
    (solve mt gp locations depot numVehicles cfg).stats = mkStatistics :=
  ⟨eaSimple_logbook_length locations depot numVehicles cxpb mutpb ts ngen pop0 g,
   fun k hk => eaSimple_logbook_gen locations depot numVehicles cxpb mutpb ts ngen pop0 g k hk,
   eaSimple_logbook_head locations depot numVehicles cxpb mutpb ts ngen pop0 g,
   rfl⟩

theorem C2_witness :
    ((eaSimple locsW (0, 0) 1 (mkRat 7 10) (mkRat 1 5) 1 1 [⟨[0, 1, 2], none⟩] rngZero).logbook).length
        = 2 ∧
    (((eaSimple locsW (0, 0) 1 (mkRat 7 10) (mkRat 1 5) 1 1 [⟨[0, 1, 2], none⟩] rngZero).logbook).getD
        0 default).gen = 0 :=
  ⟨(C2_stats_discarded locsW (0, 0) 1 (mkRat 7 10) (mkRat 1 5) 1 1 [⟨[0, 1, 2], none⟩] rngZero
      mtZero rngZero ⟨1, mkRat 7 10, mkRat 1 5, 1, 1, 42⟩).1,
   (C2_stats_discarded locsW (0, 0) 1 (mkRat 7 10) (mkRat 1 5) 1 1 [⟨[0, 1, 2], none⟩] rngZero
      mtZero rngZero ⟨1, mkRat 7 10, mkRat 1 5, 1, 1, 42⟩).2.1 0 (by omega)⟩

/-- C2 counterexample: the `stats` value returned by `solve` is the same
constant `Statistics` aggregator for `ngen = 0` and for `ngen = 2` on the
same concrete instance, so it cannot be a per-generation sequence with
`ngen + 1` entries (those lengths would have to be 1 and 3). -/
theorem C2_counterexample :
    (solve mtZero rngZero locsW (0, 0) 1 ⟨1, mkRat 7 10, mkRat 1 5, 0, 3, 42⟩).stats =
      (solve mtZero rngZero locsW (0, 0) 1 ⟨1, mkRat 7 10, mkRat 1 5, 2, 3, 42⟩).stats ∧
    (solve mtZero rngZero locsW (0, 0) 1 ⟨1, mkRat 7 10, mkRat 1 5, 2, 3, 42⟩).stats =
      mkStatistics :=
  ⟨rfl, rfl⟩

/-- C3: the Fitness order used by tournament selection and the hall of fame
(DEAP `Fitness.__gt__` with weights `(-1, -1)`, embedded as `fitGt`) is
lexicographic on `(total_distance, balance_penalty)`: one evaluated
individual beats another iff its total distance is strictly smaller, or
the total distances are equal and its balance penalty is strictly
smaller. -/
theorem C3_fitness_order_lex (f g : ℚ × ℚ) :
    fitGt (some f) (some g) = true ↔
      f.1 < g.1 ∨ (f.1 = g.1 ∧ f.2 < g.2) :=
  fitGt_some_iff f g

/-- C4: the decoder returns exactly `num_vehicles` routes, and route `i` is
the depot, followed by the locations at exactly the permutation positions
`j` with `j % num_vehicles = i` in increasing position order, followed by
the depot — assignment is by position modulo, not by value. -/
theorem C4_decoder_position_modulo (locations : List Point) (depot : Point)
    (numVehicles : Nat) (individual : List Nat)
    (h1 : 1 ≤ numVehicles) (h2 : individual.length = locations.length)
    (i : Nat) (hi : i < numVehicles) :
    (getVehicleRoutes locations depot numVehicles individual).length = numVehicles ∧
    (getVehicleRoutes locations depot numVehicles individual).getD i [] =
      depot :: (((List.range individual.length).filter
        (fun j => j % numVehicles == i)).map
        (fun j => locations.getD (individual.getD j 0) (0, 0))) ++ [depot] := by
  constructor
  · simp [getVehicleRoutes]
  · rw [← posList_eq_filter h1 hi]
    simp only [getVehicleRoutes]
    rw [List.getD_eq_getElem _ _ (by simpa using hi), List.getElem_map,
      List.getElem_range]

theorem C4_witness :
    (getVehicleRoutes [(0, 0), (10, 0), (10, 10), (0, 10)] (0, 0) 2
      [0, 1, 2, 3]).length = 2 ∧
    (getVehicleRoutes [(0, 0), (10, 0), (10, 10), (0, 10)] (0, 0) 2
      [0, 1, 2, 3]).getD 0 [] =
      (0, 0) :: (((List.range 4).filter (fun j => j % 2 == 0)).map
        (fun j => [((0 : ℚ), (0 : ℚ)), (10, 0), (10, 10), (0, 10)].getD
          ([0, 1, 2, 3].getD j 0) (0, 0))) ++ [(0, 0)] :=
  C4_decoder_position_modulo [(0, 0), (10, 0), (10, 10), (0, 10)] (0, 0) 2
    [0, 1, 2, 3] (by decide) (by decide) 0 (by decide)

/-- C5: the evaluator returns exactly the pair (sum over all vehicle routes
of the consecutive-leg Euclidean distances including both depot legs,
population standard deviation of the per-vehicle route distances); on the
4-location square with depot `(0,0)`, one vehicle and individual
`[0,1,2,3]` this is `(40, 0)`. -/
theorem C5_evaluator_formula (locations : List Point) (depot : Point)
    (numVehicles : Nat) (individual : List Nat) :
    evaluateVRP locations depot numVehicles individual =
      (((getVehicleRoutes locations depot numVehicles individual).map legSum).sum,
        popStdDev
          ((getVehicleRoutes locations depot numVehicles individual).map legSum)) ∧
    evaluateVRP [(0, 0), (10, 0), (10, 10), (0, 10)] (0, 0) 1 [0, 1, 2, 3] =
      (40, 0) := by
  constructor
  · have hmap : (List.range numVehicles).map
        (fun i => routeDistance (evalRoute locations depot numVehicles individual i)) =
        ((getVehicleRoutes locations depot numVehicles individual).map legSum) := by
      rw [getVehicleRoutes, List.map_map]
      exact List.map_congr_left (fun i _ => routeDistance_eq_legSum _)
    simp only [evaluateVRP]
    rw [hmap, npStd_eq_popStdDev]
  · with_unfolding_all decide

/-- C6: every individual produced at any stage — population initialisation,
partially-matched crossover of two valid parents of equal length, and
shuffle-index mutation — is a permutation of `{0, …, num_locations − 1}`,
and both crossover children have the parents' common length.
(`num_locations = 1` is excluded from the mutation part: there Python's
`randint(0, -1)` raises before any individual is produced.) -/
theorem C6_permutation_invariant (n : Nat) (g g' g'' : RNG)
    (p1 p2 q : List Nat)
    (h1 : p1.Perm (List.range n)) (h2 : p2.Perm (List.range n))
    (h3 : q.Perm (List.range n)) (hq : q.length ≠ 1) :
    ((pySample n g).1).Perm (List.range n) ∧
    ((cxPartialyMatched p1 p2 g').1).Perm (List.range n) ∧
    ((cxPartialyMatched p1 p2 g').2.1).Perm (List.range n) ∧
    ((cxPartialyMatched p1 p2 g').1).length = n ∧
    ((cxPartialyMatched p1 p2 g').2.1).length = n ∧
    ((mutShuffleIndexes q (mkRat 1 20) g'').1).Perm (List.range n) := by
  obtain ⟨hc1, hc2⟩ := cxPartialyMatched_perm g' h1 h2
  exact ⟨pySample_perm n g, hc1, hc2, perm_range_length hc1, perm_range_length hc2,
    (mutShuffleIndexes_perm q (mkRat 1 20) g'' hq).trans h3⟩

theorem C6_witness :
    ((pySample 3 rngZero).1).Perm (List.range 3) ∧
    ((cxPartialyMatched [0, 1, 2] [2, 0, 1] rngZero).1).Perm (List.range 3) ∧
    ((cxPartialyMatched [0, 1, 2] [2, 0, 1] rngZero).2.1).Perm (List.range 3) ∧
    ((cxPartialyMatched [0, 1, 2] [2, 0, 1] rngZero).1).length = 3 ∧
    ((cxPartialyMatched [0, 1, 2] [2, 0, 1] rngZero).2.1).length = 3 ∧
    ((mutShuffleIndexes [1, 2, 0] (mkRat 1 20) rngZero).1).Perm (List.range 3) :=
  C6_permutation_invariant 3 rngZero rngZero rngZero [0, 1, 2] [2, 0, 1]
    [1, 2, 0] (by decide) (by decide) (by decide) (by decide)

/-- C7: the size-1 hall of fame is monotone and holds the best individual:
(1) across one generation its stored fitness never worsens in the
lexicographic order; (2) after an update the retained individual is beaten
by no member of the updating population nor by the previous holder
(fitness caches being a function of the permutation, as the solver
guarantees); (3) `solve` returns the hall-of-fame member as best; and
(4) that best individual need not belong to the returned final
population. -/
theorem C7_hall_of_fame_best (locations : List Point) (depot : Point)
    (numVehicles : Nat) (cxpb mutpb : ℚ) (ts gen : Nat) (pop : List Ind)
    (g : RNG) (b b' : Ind) (f : ℚ × ℚ) :
    ((eaGen locations depot numVehicles cxpb mutpb ts gen pop (some b) g).2.1 =
        some b' → b.fit = some f →
      ∃ f', b'.fit = some f' ∧ (f'.1 < f.1 ∨ (f'.1 = f.1 ∧ f'.2 ≤ f.2))) ∧
    (∀ hpop : List Ind, hofUpdate (some b) hpop = some b' →
      (∀ x ∈ b :: hpop, ∀ y ∈ b :: hpop, x.perm = y.perm → x.fit = y.fit) →
      (∀ x ∈ hpop, fitGt x.fit b'.fit = false) ∧ fitGt b.fit b'.fit = false) ∧
    (∀ (mt : Int → Nat → Nat) (gp : RNG) (cfg : GaConfig),
      (solve mt gp locations depot numVehicles cfg).best =
        ((solve mt gp locations depot numVehicles cfg).hof).getD default) ∧
    (∃ (mt : Int → Nat → Nat) (gp : RNG) (locs : List Point) (dep : Point)
        (nv : Nat) (cfg : GaConfig),
      (solve mt gp locs dep nv cfg).best ∉ (solve mt gp locs dep nv cfg).pop) := by
  refine ⟨?_, ?_, ?_, ?_⟩
  · intro hhof hbf
    rw [eaGen_hof] at hhof
    obtain ⟨b'', hb'', hrel⟩ := hofUpdate_shape (evalPop locations depot numVehicles
      ((varAnd ((selTournament pop ts pop.length g).1) cxpb mutpb
        ((selTournament pop ts pop.length g).2)).1)) b
    rw [hhof] at hb''
    obtain rfl : b' = b'' := Option.some.inj hb''
    rcases hrel with rfl | hbt
    · exact ⟨f, hbf, Or.inr ⟨rfl, le_refl _⟩⟩
    · rw [hbf] at hbt
      cases hb'f : b'.fit with
      | none => rw [hb'f] at hbt; simp [fitGt] at hbt
      | some f' =>
        rw [hb'f] at hbt
        rcases (fitGt_some_iff f' f).mp hbt with h | ⟨h, h2⟩
        · exact ⟨f', rfl, Or.inl h⟩
        · exact ⟨f', rfl, Or.inr ⟨h, le_of_lt h2⟩⟩
  · intro hpop hupd coh
    exact hofUpdate_not_beaten hpop b b' hupd coh
  · intro mt gp cfg
    rfl
  · exact ⟨mtSeven, rngZero, locsW, (0, 0), 1, ⟨1, mkRat 7 10, mkRat 1 2, 1, 1, 42⟩, by with_unfolding_all decide⟩

theorem C7_witness :
    ((∀ x ∈ [⟨[1, 0], some ((2 : ℚ), (0 : ℚ))⟩],
        fitGt (Ind.fit x) (Ind.fit ⟨[0, 1], some ((1 : ℚ), (0 : ℚ))⟩) = false) ∧
      fitGt (Ind.fit ⟨[0, 1], some ((1 : ℚ), (0 : ℚ))⟩)
        (Ind.fit ⟨[0, 1], some ((1 : ℚ), (0 : ℚ))⟩) = false) :=
  (C7_hall_of_fame_best locsW (0, 0) 1 (mkRat 7 10) (mkRat 1 2) 1 1 [] rngZero
      ⟨[0, 1], some (1, 0)⟩ ⟨[0, 1], some (1, 0)⟩ (1, 0)).2.1
    [⟨[1, 0], some (2, 0)⟩] (by with_unfolding_all decide) (by with_unfolding_all decide)

/-- C8: `solve` seeds the random source exactly once at entry from the
configured seed, so its result is independent of the pre-existing global
random state: two calls with identical instance and configuration are
bit-identical. -/
theorem C8_seeded_reproducibility (mt : Int → Nat → Nat) (g1 g2 : RNG)
    (locations : List Point) (depot : Point) (numVehicles : Nat)
    (cfg : GaConfig) :
    solve mt g1 locations depot numVehicles cfg =
      solve mt g2 locations depot numVehicles cfg := rfl

/-- C9: with fewer locations than vehicles, decoding and evaluation stay
total: every vehicle `i` beyond the permutation length gets the empty route
depot → depot, that route's distance is exactly 0, and the evaluator still
returns a well-defined pair of non-negative rationals. -/
theorem C9_empty_routes_safe (locations : List Point) (depot : Point)
    (numVehicles : Nat) (individual : List Nat) (i : Nat)
    (h1 : individual.length ≤ i) (h2 : i < numVehicles) :
    (getVehicleRoutes locations depot numVehicles individual).getD i [] =
      [depot, depot] ∧
    routeDistance [depot, depot] = 0 ∧
    0 ≤ (evaluateVRP locations depot numVehicles individual).1 ∧
    0 ≤ (evaluateVRP locations depot numVehicles individual).2 := by
  refine ⟨?_, routeDistance_pair depot, evaluateVRP_fst_nonneg .., evaluateVRP_snd_nonneg ..⟩
  simp only [getVehicleRoutes]
  rw [List.getD_eq_getElem _ _ (by simpa using h2), List.getElem_map,
    List.getElem_range]
  exact evalRoute_empty locations depot individual h1 (by omega)

theorem C9_witness :
    (getVehicleRoutes [((1 : ℚ), (0 : ℚ))] (0, 0) 3 [0]).getD 2 [] =
      [((0 : ℚ), (0 : ℚ)), (0, 0)] ∧
    routeDistance [((0 : ℚ), (0 : ℚ)), (0, 0)] = 0 ∧
    0 ≤ (evaluateVRP [((1 : ℚ), (0 : ℚ))] (0, 0) 3 [0]).1 ∧
    0 ≤ (evaluateVRP [((1 : ℚ), (0 : ℚ))] (0, 0) 3 [0]).2 :=
  C9_empty_routes_safe [(1, 0)] (0, 0) 3 [0] 2 (by decide) (by decide)

/-- C10: the route construction inlined in the fitness evaluator agrees
with the public decoder — the total-distance component of the evaluator
equals the sum of the per-route consecutive-point Euclidean distances over
the routes returned by `get_vehicle_routes`. -/
theorem C10_eval_matches_decoder (locations : List Point) (depot : Point)
    (numVehicles : Nat) (individual : List Nat) :
    (evaluateVRP locations depot numVehicles individual).1 =
      ((getVehicleRoutes locations depot numVehicles individual).map
        routeDistance).sum := by
  simp only [evaluateVRP, getVehicleRoutes, List.map_map]
  rfl

end VRPGA
